import Mathlib

/-!
Verification of the `GoodWillHunting/gwh.py` program: a constraint model
enumerating homomorphically irreducible trees on `n` labeled nodes, with
console reporting and GraphViz artifact generation.

The first part embeds the constraint model built by `gwh` (variables
`X(i,j)`, rank variables `R(i)`, and the five constraint families) as an
executable satisfaction predicate `modelSat`.  The second part embeds the
reporting / artifact-generation behaviour of `gwh` and of the
`__main__` block as a pure function over an environment describing the
external `neato` tool's behaviour.
-/

namespace GWH

/-- Value of the symmetric edge matrix entry `x[i][j]` given the values `v`
of the underlying variables `X(i, j)` (declared only for `i < j`); mirrors
`x[i][j] = x[j][i] = mdl.integer_var(0, 1, ...)` together with the untouched
diagonal entry `x[i][i] = 0`. -/
def xval (v : Nat → Nat → Bool) (i j : Nat) : Bool :=
  if i < j then v i j else if j < i then v j i else false

/-- Numeric (0/1) entry of the Python row list `x[i]` at index `j`. -/
def xnum (v : Nat → Nat → Bool) (i j : Nat) : Nat :=
  if xval v i j then 1 else 0

/-- The row list `x[i]` of length `n`. -/
def xrow (n : Nat) (v : Nat → Nat → Bool) (i : Nat) : List Nat :=
  (List.range n).map (xnum v i)

/-- `deg[i] = mdl.sum(x[i])`. -/
def deg (n : Nat) (v : Nat → Nat → Bool) (i : Nat) : Nat :=
  (xrow n v i).sum

/-- docplex `mdl.lexicographic(a, b)`: `a` is lexicographically ≤ `b`. -/
def lexLe : List Nat → List Nat → Bool
  | [], _ => true
  | _ :: _, [] => false
  | a :: as, b :: bs => if a < b then true else if a = b then lexLe as bs else false

/-- `a1 = [deg[i-1]] + x[i-1][:i-1] + x[i-1][i+1:]` (the signature of node
`i-1` used in the symmetry-breaking constraint for the pair `(i-1, i)`). -/
def a1seq (n : Nat) (v : Nat → Nat → Bool) (i : Nat) : List Nat :=
  deg n v (i - 1) :: ((xrow n v (i - 1)).take (i - 1) ++ (xrow n v (i - 1)).drop (i + 1))

/-- `a2 = [deg[i]] + x[i][:i-1] + x[i][i+1:]`. -/
def a2seq (n : Nat) (v : Nat → Nat → Bool) (i : Nat) : List Nat :=
  deg n v i :: ((xrow n v i).take (i - 1) ++ (xrow n v i).drop (i + 1))

/-- `num_parents` for node `i`: the sum over all `j` of
`(x[i][j] == 1) & (rank[j] == rank[i] - 1)` (over nonnegative ranks,
`rank[j] = rank[i] - 1` is the same as `rank[j] + 1 = rank[i]`). -/
def numParents (n : Nat) (v : Nat → Nat → Bool) (r : Nat → Nat) (i : Nat) : Nat :=
  ((List.range n).map (fun j => if xval v i j && (r j + 1 == r i) then 1 else 0)).sum

/-- Satisfaction of the whole constraint model built by `gwh(n)`:
* for `n > 1`, `forbidden_assignments(deg[i], [0, 2])` for every node;
* `rank[i]` lies in its declared domain `[0, n-1]`;
* `rank[0] == 0`;
* for every `i` in `range(1, n)` and every `j`: `if_then(x[i][j] == 1,
  abs(rank[i] - rank[j]) == 1)` (over nonnegative ranks the conclusion is
  `rank[i] + 1 = rank[j] ∨ rank[j] + 1 = rank[i]`), and `num_parents == 1`;
* for every `i` in `range(1, n)`: `lexicographic(a2, a1)`. -/
def modelSat (n : Nat) (v : Nat → Nat → Bool) (r : Nat → Nat) : Bool :=
  (n ≤ 1 || (List.range n).all fun i => deg n v i != 0 && deg n v i != 2) &&
  ((List.range n).all fun i => decide (r i ≤ n - 1)) &&
  (r 0 == 0) &&
  ((List.range' 1 (n - 1)).all fun i =>
    ((List.range n).all fun j =>
      !(xval v i j) || (r i + 1 == r j || r j + 1 == r i)) &&
    (numParents n v r i == 1)) &&
  ((List.range' 1 (n - 1)).all fun i => lexLe (a2seq n v i) (a1seq n v i))

/-- Realized degree of node `i` as computed by the text reporter:
`sum(res[x[i][j]] for j in range(n) if i != j)`. -/
def sig (n : Nat) (v : Nat → Nat → Bool) (i : Nat) : Nat :=
  (((List.range n).filter fun j => !(i == j)).map (xnum v i)).sum

/-- Sample satisfying assignment for `n = 2` (the unique 2-node tree). -/
def vW : Nat → Nat → Bool := fun _ _ => true

/-- Ranks for the sample assignment: node `i` at depth `i`. -/
def rW : Nat → Nat := fun i => i

example : modelSat 2 vW rW = true := by decide

example : modelSat 1 vW (fun _ => 0) = true := by decide

/-! ### Basic facts about the embedding -/

theorem xval_symm (v : Nat → Nat → Bool) (i j : Nat) : xval v i j = xval v j i := by
  unfold xval
  rcases Nat.lt_trichotomy i j with h | h | h
  · simp [h, Nat.lt_asymm h]
  · simp [h]
  · simp [h, Nat.lt_asymm h]

theorem xval_diag (v : Nat → Nat → Bool) (i : Nat) : xval v i i = false := by
  simp [xval]

theorem xnum_symm (v : Nat → Nat → Bool) (i j : Nat) : xnum v i j = xnum v j i := by
  simp [xnum, xval_symm v i j]

/-- The realized degree of the reporter equals the model's `deg` expression
(the diagonal row entry is the constant `0`). -/
theorem sig_eq_deg (n : Nat) (v : Nat → Nat → Bool) (i : Nat) :
    sig n v i = deg n v i := by
  unfold sig deg xrow
  induction n with
  | zero => simp
  | succ m ih =>
      rw [List.range_succ, List.filter_append, List.map_append, List.sum_append,
        List.map_append, List.sum_append, ih]
      by_cases h : i = m
      · subst h
        simp [xnum, xval_diag]
      · simp [h, Ne.symm h]

/-! ### Extraction of the individual constraints from `modelSat` -/

theorem modelSat_deg {n : Nat} {v : Nat → Nat → Bool} {r : Nat → Nat}
    (h : modelSat n v r = true) (hn : 1 < n) {i : Nat} (hi : i < n) :
    deg n v i ≠ 0 ∧ deg n v i ≠ 2 := by
  simp only [modelSat, Bool.and_eq_true, Bool.or_eq_true, List.all_eq_true,
    List.mem_range, decide_eq_true_eq] at h
  rcases h.1.1.1.1 with h' | h'
  · omega
  · have := h' i hi
    simp only [bne_iff_ne, ne_eq, Bool.and_eq_true] at this
    exact ⟨this.1, this.2⟩

theorem modelSat_rank_le {n : Nat} {v : Nat → Nat → Bool} {r : Nat → Nat}
    (h : modelSat n v r = true) {i : Nat} (hi : i < n) : r i ≤ n - 1 := by
  simp only [modelSat, Bool.and_eq_true, List.all_eq_true, List.mem_range,
    decide_eq_true_eq] at h
  exact h.1.1.1.2 i hi

theorem modelSat_rank_zero {n : Nat} {v : Nat → Nat → Bool} {r : Nat → Nat}
    (h : modelSat n v r = true) : r 0 = 0 := by
  simp only [modelSat, Bool.and_eq_true, beq_iff_eq] at h
  exact h.1.1.2

theorem mem_range_one {n i : Nat} (h1 : 1 ≤ i) (h2 : i < n) :
    i ∈ List.range' 1 (n - 1) := by
  rw [List.mem_range'_1]
  omega

theorem modelSat_edge_rank {n : Nat} {v : Nat → Nat → Bool} {r : Nat → Nat}
    (h : modelSat n v r = true) {i j : Nat} (h1 : 1 ≤ i) (h2 : i < n) (hj : j < n)
    (hx : xval v i j = true) : r i + 1 = r j ∨ r j + 1 = r i := by
  simp only [modelSat, Bool.and_eq_true, List.all_eq_true] at h
  have := (h.1.2 i (mem_range_one h1 h2)).1 j (by simpa using hj)
  simp only [hx, Bool.not_true, Bool.false_or, Bool.or_eq_true, beq_iff_eq] at this
  exact this

theorem modelSat_numParents {n : Nat} {v : Nat → Nat → Bool} {r : Nat → Nat}
    (h : modelSat n v r = true) {i : Nat} (h1 : 1 ≤ i) (h2 : i < n) :
    numParents n v r i = 1 := by
  simp only [modelSat, Bool.and_eq_true, List.all_eq_true] at h
  have := (h.1.2 i (mem_range_one h1 h2)).2
  simpa using this

theorem modelSat_lex {n : Nat} {v : Nat → Nat → Bool} {r : Nat → Nat}
    (h : modelSat n v r = true) {i : Nat} (h1 : 1 ≤ i) (h2 : i < n) :
    lexLe (a2seq n v i) (a1seq n v i) = true := by
  simp only [modelSat, Bool.and_eq_true, List.all_eq_true] at h
  exact h.2 i (mem_range_one h1 h2)

/-- An edge with an endpoint of positive index, seen from either side,
joins nodes whose ranks differ by exactly one. -/
theorem edge_rank_any {n : Nat} {v : Nat → Nat → Bool} {r : Nat → Nat}
    (h : modelSat n v r = true) {a b : Nat} (ha : a < n) (hb : b < n)
    (hab : a ≠ b) (hx : xval v a b = true) : r a + 1 = r b ∨ r b + 1 = r a := by
  rcases Nat.eq_zero_or_pos a with h0 | h1
  · subst h0
    have hb1 : 1 ≤ b := Nat.pos_of_ne_zero (Ne.symm hab)
    have := modelSat_edge_rank h hb1 hb ha (by rw [← xval_symm]; exact hx)
    tauto
  · exact modelSat_edge_rank h h1 ha hb hx

/-! ### C2: the symmetry-breaking signatures -/

/-- The row of node `k` with only the diagonal self-entry omitted, as the
spec describes the compared sequences ("the ordered list of `x(k,j)` over
all `j` with only the diagonal self-entry `x(k,k)` omitted"). -/
def specRow (n : Nat) (v : Nat → Nat → Bool) (k : Nat) : List Nat :=
  ((List.range n).filter fun j => !(j == k)).map (xnum v k)

/-- Removing a common entry at a common position of two equal-offset lists
does not change their lexicographic comparison. -/
theorem lexLe_middle (m : Nat) :
    ∀ (u w p q : List Nat), u.length = w.length →
      lexLe (u ++ m :: p) (w ++ m :: q) = lexLe (u ++ p) (w ++ q) := by
  intro u
  induction u with
  | nil =>
      intro w p q hw
      cases w with
      | nil => simp [lexLe]
      | cons b bs => simp at hw
  | cons a as ih =>
      intro w p q hw
      cases w with
      | nil => simp at hw
      | cons b bs =>
          simp only [List.cons_append, lexLe, List.append_eq]
          rw [ih bs p q (by simpa using hw)]

theorem filter_ne_range (n k : Nat) (hk : k < n) :
    ((List.range n).filter fun j => !(j == k)) =
      (List.range n).take k ++ (List.range n).drop (k + 1) := by
  induction n with
  | zero => omega
  | succ m ih =>
      rw [List.range_succ, List.filter_append]
      rcases Nat.lt_or_ge k m with h | h
      · rw [ih h]
        have hne : (m == k) = false := by simp; omega
        rw [List.take_append_of_le_length (by simp; omega),
          List.drop_append_of_le_length (by simp; omega)]
        simp [hne, List.append_assoc]
      · have hk' : k = m := by omega
        subst hk'
        have h1 : ∀ j ∈ List.range k, (!(j == k)) = true := by
          intro j hj
          simp only [List.mem_range] at hj
          simp
          omega
        rw [List.filter_eq_self.mpr h1]
        rw [List.take_append_of_le_length (by simp),
          List.drop_eq_nil_of_le (by simp)]
        simp [List.take_of_length_le]

theorem specRow_take_drop (n : Nat) (v : Nat → Nat → Bool) (k : Nat) (hk : k < n) :
    specRow n v k = (xrow n v k).take k ++ (xrow n v k).drop (k + 1) := by
  rw [specRow, filter_ne_range n k hk, List.map_append, xrow,
    List.map_take, List.map_drop]

/-- C2: the model's symmetry-breaking constraint for the adjacent pair
`(i-1, i)` is exactly the requirement that `[deg(i)] ++ row(i)` be
lexicographically ≤ `[deg(i-1)] ++ row(i-1)`, where `row(k)` omits only the
diagonal self-entry: the sequences actually built by the code (which also
drop the shared partner entry `x(i-1,i)`) compare identically, and every
satisfying assignment satisfies the spec-stated comparison. -/
theorem C2_lex_signature (n : Nat) (v : Nat → Nat → Bool) (r : Nat → Nat) (i : Nat)
    (h1 : 1 ≤ i) (h2 : i < n) :
    (lexLe (deg n v i :: specRow n v i) (deg n v (i - 1) :: specRow n v (i - 1)) =
      lexLe (a2seq n v i) (a1seq n v i)) ∧
    (modelSat n v r = true →
      lexLe (deg n v i :: specRow n v i) (deg n v (i - 1) :: specRow n v (i - 1)) = true) := by
  have hlen : ∀ j, (xrow n v j).length = n := by
    intro j; simp [xrow]
  have hi1 : i - 1 < n := by omega
  obtain ⟨k, rfl⟩ : ∃ k, i = k + 1 := ⟨i - 1, by omega⟩
  have key : lexLe (deg n v (k + 1) :: specRow n v (k + 1))
        (deg n v (k + 1 - 1) :: specRow n v (k + 1 - 1)) =
      lexLe (a2seq n v (k + 1)) (a1seq n v (k + 1)) := by
    simp only [Nat.add_sub_cancel]
    rw [specRow_take_drop n v (k + 1) h2, specRow_take_drop n v k (by omega)]
    -- row k+1: take (k+1) = take k ++ [x(k+1, k)]
    have e2 : (xrow n v (k + 1)).take (k + 1) =
        (xrow n v (k + 1)).take k ++ [xnum v (k + 1) k] := by
      rw [List.take_succ]
      have hlt : k < (xrow n v (k + 1)).length := by rw [hlen]; omega
      rw [List.getElem?_eq_getElem hlt]
      simp only [xrow, List.getElem_map, List.getElem_range, Option.toList_some]
    -- row k: drop (k+1) = x(k, k+1) :: drop (k+2)
    have e1 : (xrow n v k).drop (k + 1) =
        xnum v k (k + 1) :: (xrow n v k).drop (k + 1 + 1) := by
      have hlt : k + 1 < (xrow n v k).length := by rw [hlen]; omega
      rw [List.drop_eq_getElem_cons hlt]
      simp only [xrow, List.getElem_map, List.getElem_range]
    rw [e2, e1, xnum_symm v k (k + 1)]
    have assoc : (xrow n v (k + 1)).take k ++ [xnum v (k + 1) k]
          ++ (xrow n v (k + 1)).drop (k + 1 + 1) =
        (xrow n v (k + 1)).take k
          ++ (xnum v (k + 1) k :: (xrow n v (k + 1)).drop (k + 1 + 1)) := by
      simp [List.append_assoc]
    rw [assoc]
    have := lexLe_middle (xnum v (k + 1) k)
      (deg n v (k + 1) :: (xrow n v (k + 1)).take k)
      (deg n v k :: (xrow n v k).take k)
      ((xrow n v (k + 1)).drop (k + 1 + 1)) ((xrow n v k).drop (k + 1 + 1))
      (by simp [List.length_take, hlen])
    simpa [a2seq, a1seq] using this
  refine ⟨key, fun h => ?_⟩
  rw [key]
  exact modelSat_lex h h1 h2

/-- Witness for C2 at the concrete pair `(0, 1)` of the 2-node model. -/
theorem C2_lex_signature_witness :
    1 ≤ 1 ∧ 1 < 2 ∧
    ((lexLe (deg 2 vW 1 :: specRow 2 vW 1) (deg 2 vW 0 :: specRow 2 vW 0) =
        lexLe (a2seq 2 vW 1) (a1seq 2 vW 1)) ∧
      (modelSat 2 vW rW = true →
        lexLe (deg 2 vW 1 :: specRow 2 vW 1) (deg 2 vW 0 :: specRow 2 vW 0) = true)) :=
  ⟨by decide, by decide, C2_lex_signature 2 vW rW 1 (by decide) (by decide)⟩

/-! ### C4: degrees are never 0 and never 2 -/

/-- C4: for every `n > 1`, every satisfying assignment of the model and every
node `i < n`, the realized degree of node `i` (the sum of `x(i,j)` over all
`j ≠ i`) is neither 0 nor 2. -/
theorem C4_degree_not_zero_not_two (n : Nat) (v : Nat → Nat → Bool) (r : Nat → Nat)
    (hn : 1 < n) (i : Nat) (hi : i < n) (h : modelSat n v r = true) :
    sig n v i ≠ 0 ∧ sig n v i ≠ 2 := by
  rw [sig_eq_deg]
  exact modelSat_deg h hn hi

/-- Witness for C4 at the concrete satisfying assignment of size 2. -/
theorem C4_degree_not_zero_not_two_witness :
    1 < 2 ∧ 0 < 2 ∧ modelSat 2 vW rW = true ∧ (sig 2 vW 0 ≠ 0 ∧ sig 2 vW 0 ≠ 2) :=
  ⟨by decide, by decide, by decide,
    C4_degree_not_zero_not_two 2 vW rW (by decide) 0 (by decide) (by decide)⟩

/-! ### Embedding of the reporting / artifact-generation behaviour

`gwh` prints, for each solution, a degree line and `n` adjacency lines, and
(when graph output is enabled) writes edge statements into `gwh_<n>.dot`,
renders it with `neato` into `gwh_<n>.pdf` and unlinks the `.dot` file.
The `__main__` block probes for `neato` up front and reports final status.
We model a run as a pure function of the problem size, the solver's
solution stream (the values of the `X` variables of each solution, in
order) and an environment describing the external tool's behaviour. -/

/-- `chr(ord('A') + i)`. -/
def letterOf (i : Nat) : Char := Char.ofNat (65 + i)

/-- The edge statement `'"{0}{1}"--"{0}{2}";'.format(s, ni, nj)`. -/
def edgeLine (s : Nat) (i j : Nat) : String :=
  "\"" ++ toString s ++ String.singleton (letterOf i) ++ "\"--\""
    ++ toString s ++ String.singleton (letterOf j) ++ "\";"

/-- `'  ' * i`. -/
def indentOf (i : Nat) : String := String.join (List.replicate i "  ")

/-- Python's `str` of a list of integers, e.g. `[1, 3, 1, 1]`. -/
def pyList : List Nat → String
  | [] => "[]"
  | a :: as => "[" ++ toString a ++ String.join (as.map fun b => ", " ++ toString b) ++ "]"

/-- The degree signature list of one solution. -/
def sigList (n : Nat) (v : Nat → Nat → Bool) : List Nat :=
  (List.range n).map (sig n v)

/-- `'Graph {}, degrees = {}'.format(s, sig)`. -/
def degreesLine (s : Nat) (n : Nat) (v : Nat → Nat → Bool) : String :=
  "Graph " ++ toString s ++ ", degrees = " ++ pyList (sigList n v)

/-- Body of the inner `for j in range(i + 1, n)` loop: extend the console
line with ` {res[x[i][j]]}` and, if graph output is enabled and the edge is
realized, append an edge statement to the dot file. -/
def rowStep (dg : Bool) (s : Nat) (v : Nat → Nat → Bool) (i : Nat)
    (acc : String × List String) (j : Nat) : String × List String :=
  (acc.1 ++ " " ++ toString (xnum v i j),
   if dg && xval v i j then acc.2 ++ [edgeLine s i j] else acc.2)

/-- The inner `for j in range(i + 1, n)` loop of the solution loop: builds
the console line for node `i` (starting from `'  ' * i + '.'`) and the edge
statements emitted for row `i`. -/
def rowLoop (dg : Bool) (s : Nat) (v : Nat → Nat → Bool) (i n : Nat) :
    String × List String :=
  (List.range' (i + 1) (n - (i + 1))).foldl (rowStep dg s v i) (indentOf i ++ ".", [])

/-- One iteration of `for res in CpoSolver(mdl, ...)`: bump the counter,
print the degree line and the `n` adjacency lines, accumulate dot-file
edge statements. -/
def solStep (n : Nat) (dg : Bool) (st : Nat × List String × List String)
    (v : Nat → Nat → Bool) : Nat × List String × List String :=
  let s := st.1 + 1
  let rows := (List.range n).map fun i => rowLoop dg s v i n
  (s, st.2.1 ++ degreesLine s n v :: rows.map Prod.fst,
    st.2.2 ++ rows.flatMap Prod.snd)

/-- The whole solution loop, returning the final counter together with the
console lines and the dot-file edge statements it produced. -/
def enumLoop (n : Nat) (dg : Bool) (sols : List (Nat → Nat → Bool)) :
    Nat × List String × List String :=
  sols.foldl (solStep n dg) (0, [], [])

/-- Behaviour of the external layout tool in a given run. -/
structure Env where
  /-- `subprocess.run(['neato', '-h'])` raises `FileNotFoundError`. -/
  probeRaises : Bool
  /-- the rendering invocation `subprocess.run(['neato', '-Tpdf', ...])`
  raises (e.g. the executable vanished after the probe). -/
  renderRaises : Bool
  /-- exit status of the rendering invocation when it does not raise. -/
  renderExit : Nat

/-- Observable outcome of a whole run. -/
structure RunResult where
  /-- the process terminated normally (exit status zero). -/
  exitOk : Bool
  stdout : List String
  /-- `gwh_<n>.dot` exists when the process ends. -/
  dotExists : Bool
  /-- `gwh_<n>.pdf` exists when the process ends. -/
  pdfExists : Bool
  /-- the lines written into `gwh_<n>.dot` (empty if never opened). -/
  dotContent : List String

def pdfName (n : Nat) : String := "gwh_" ++ toString n ++ ".pdf"

/-- The `__main__` run: probe for `neato`, call `gwh(n, display_graphs=pdf_out)`,
report final status.  When graph output is enabled the dot file is opened
(header line `graph {`) before the loop, the footer `}` is written after it,
the pdf file is opened for writing (created) before `neato` runs, and the
dot file is unlinked only if the `neato` invocation returns (its exit status
is ignored); an exception from the invocation propagates, skipping both the
unlink and the final status line. -/
def runMain (n : Nat) (env : Env) (sols : List (Nat → Nat → Bool)) : RunResult :=
  let pdfOut := !env.probeRaises
  let res := enumLoop n pdfOut sols
  let countLine := toString res.1 ++ " solutions found"
  if pdfOut then
    let dotC := "graph \x7b" :: res.2.2 ++ ["\x7d"]
    if env.renderRaises then
      { exitOk := false, stdout := res.2.1 ++ [countLine],
        dotExists := true, pdfExists := true, dotContent := dotC }
    else
      { exitOk := true,
        stdout := res.2.1 ++ [countLine, "GraphViz rendered trees in " ++ pdfName n],
        dotExists := false, pdfExists := true, dotContent := dotC }
  else
    { exitOk := true,
      stdout := res.2.1 ++
        [countLine, "GraphViz rendering commands not found.  No PDF generated"],
      dotExists := false, pdfExists := false, dotContent := [] }

/-! #### Closed forms for the loop output -/

/-- The console line of node `i` (independent of graph output). -/
def screenRow (v : Nat → Nat → Bool) (i n : Nat) : String :=
  (rowLoop false 0 v i n).1

/-- The dot-file statements of one solution, row-major. -/
def dotRow (s : Nat) (v : Nat → Nat → Bool) (i n : Nat) : List String :=
  ((List.range' (i + 1) (n - (i + 1))).filter fun j => xval v i j).map (edgeLine s i)

/-- All console lines of one solution. -/
def solScreen (n s : Nat) (v : Nat → Nat → Bool) : List String :=
  degreesLine s n v :: (List.range n).map fun i => screenRow v i n

/-- All dot-file statements of one solution. -/
def solDot (n s : Nat) (v : Nat → Nat → Bool) : List String :=
  (List.range n).flatMap fun i => dotRow s v i n

theorem rowFold_fst (dg dg' : Bool) (s s' : Nat) (v : Nat → Nat → Bool) (i : Nat) :
    ∀ (js : List Nat) (acc acc' : String × List String), acc.1 = acc'.1 →
      (js.foldl (rowStep dg s v i) acc).1 = (js.foldl (rowStep dg' s' v i) acc').1 := by
  intro js
  induction js with
  | nil => intro acc acc' h; exact h
  | cons j js ih =>
      intro acc acc' h
      rw [List.foldl_cons, List.foldl_cons]
      exact ih _ _ (by simp only [rowStep, h])

theorem rowLoop_fst (dg : Bool) (s : Nat) (v : Nat → Nat → Bool) (i n : Nat) :
    (rowLoop dg s v i n).1 = screenRow v i n := by
  unfold rowLoop screenRow rowLoop
  exact rowFold_fst dg false s 0 v i _ _ _ rfl

theorem rowFold_snd (dg : Bool) (s : Nat) (v : Nat → Nat → Bool) (i : Nat) :
    ∀ (js : List Nat) (acc : String × List String),
      (js.foldl (rowStep dg s v i) acc).2 =
        acc.2 ++ if dg then (js.filter fun j => xval v i j).map (edgeLine s i) else [] := by
  intro js
  induction js with
  | nil => intro acc; cases dg <;> simp
  | cons j js ih =>
      intro acc
      rw [List.foldl_cons, ih]
      simp only [rowStep]
      cases dg with
      | false => simp
      | true =>
          by_cases h : xval v i j
          · simp [h, List.filter_cons, List.append_assoc]
          · simp [h, List.filter_cons]

theorem rowLoop_snd (dg : Bool) (s : Nat) (v : Nat → Nat → Bool) (i n : Nat) :
    (rowLoop dg s v i n).2 = if dg then dotRow s v i n else [] := by
  unfold rowLoop dotRow
  rw [rowFold_snd]
  simp

theorem solStep_eq (n : Nat) (dg : Bool) (st : Nat × List String × List String)
    (v : Nat → Nat → Bool) :
    solStep n dg st v =
      (st.1 + 1, st.2.1 ++ solScreen n (st.1 + 1) v,
        st.2.2 ++ if dg then solDot n (st.1 + 1) v else []) := by
  unfold solStep solScreen solDot
  refine congrArg (Prod.mk _) (congrArg₂ Prod.mk ?_ ?_)
  · rw [List.map_map]
    refine congrArg (st.2.1 ++ degreesLine (st.1 + 1) n v :: ·) ?_
    exact List.map_congr_left fun i _ => rowLoop_fst dg (st.1 + 1) v i n
  · rw [List.flatMap_map]
    refine congrArg (st.2.2 ++ ·) ?_
    have : ((List.range n).flatMap fun i => (rowLoop dg (st.1 + 1) v i n).2) =
        (List.range n).flatMap fun i => if dg then dotRow (st.1 + 1) v i n else [] :=
      List.flatMap_congr fun i _ => rowLoop_snd dg (st.1 + 1) v i n
    rw [this]
    cases dg <;> simp

theorem enumLoop_go (n : Nat) (dg : Bool) :
    ∀ (sols : List (Nat → Nat → Bool)) (s : Nat) (scr dot : List String),
      sols.foldl (solStep n dg) (s, scr, dot) =
        (s + sols.length,
          scr ++ (List.enumFrom (s + 1) sols).flatMap (fun p => solScreen n p.1 p.2),
          dot ++ if dg then
            (List.enumFrom (s + 1) sols).flatMap (fun p => solDot n p.1 p.2) else []) := by
  intro sols
  induction sols with
  | nil =>
      intro s scr dot
      cases dg <;> simp
  | cons v sols ih =>
      intro s scr dot
      rw [List.foldl_cons, solStep_eq, ih, List.enumFrom_cons, List.flatMap_cons,
        List.flatMap_cons]
      refine Prod.ext ?_ (Prod.ext ?_ ?_)
      · simp
        omega
      · simp [List.append_assoc]
      · cases dg <;> simp [List.append_assoc]

theorem enumLoop_eq (n : Nat) (dg : Bool) (sols : List (Nat → Nat → Bool)) :
    enumLoop n dg sols =
      (sols.length,
        (List.enumFrom 1 sols).flatMap (fun p => solScreen n p.1 p.2),
        if dg then (List.enumFrom 1 sols).flatMap (fun p => solDot n p.1 p.2) else []) := by
  unfold enumLoop
  rw [enumLoop_go]
  simp

/-! ### C7: layout tool unavailable at probe time -/

/-- C7: when the probe for the layout tool raises, the run is not aborted:
no dot file is opened or written, no pdf file is created, console reporting
(the same per-solution lines as in an enabled run) and the final solution
count are produced unchanged, and the run ends normally with the
informational closing message. -/
theorem C7_layout_unavailable (n : Nat) (env : Env) (sols : List (Nat → Nat → Bool))
    (h : env.probeRaises = true) :
    (runMain n env sols).exitOk = true ∧
    (runMain n env sols).dotExists = false ∧
    (runMain n env sols).pdfExists = false ∧
    (runMain n env sols).dotContent = [] ∧
    (runMain n env sols).stdout =
      ((List.enumFrom 1 sols).flatMap fun p => solScreen n p.1 p.2) ++
        [toString sols.length ++ " solutions found",
          "GraphViz rendering commands not found.  No PDF generated"] ∧
    (runMain n env sols).stdout.dropLast =
      (runMain n { probeRaises := false, renderRaises := false, renderExit := 0 }
        sols).stdout.dropLast := by
  have e0 : runMain n env sols =
      { exitOk := true,
        stdout := (enumLoop n false sols).2.1 ++
          [toString (enumLoop n false sols).1 ++ " solutions found",
            "GraphViz rendering commands not found.  No PDF generated"],
        dotExists := false, pdfExists := false, dotContent := [] } := by
    unfold runMain
    rw [h]
    rfl
  have e1 : runMain n { probeRaises := false, renderRaises := false, renderExit := 0 } sols =
      { exitOk := true,
        stdout := (enumLoop n true sols).2.1 ++
          [toString (enumLoop n true sols).1 ++ " solutions found",
            "GraphViz rendered trees in " ++ pdfName n],
        dotExists := false, pdfExists := true,
        dotContent := "graph \x7b" :: (enumLoop n true sols).2.2 ++ ["\x7d"] } := by
    unfold runMain
    rfl
  rw [e0, e1, enumLoop_eq, enumLoop_eq]
  refine ⟨rfl, rfl, rfl, rfl, rfl, ?_⟩
  have hd : ∀ (l : List String) (a b : String), (l ++ [a, b]).dropLast = l ++ [a] := by
    intro l a b
    have : l ++ [a, b] = (l ++ [a]) ++ [b] := by simp
    rw [this, List.dropLast_concat]
  simp only [hd]

/-- Witness for C7 at a concrete run of size 1 with no solutions. -/
theorem C7_layout_unavailable_witness :
    (runMain 1 ⟨true, false, 0⟩ []).exitOk = true ∧
    (runMain 1 ⟨true, false, 0⟩ []).dotExists = false ∧
    (runMain 1 ⟨true, false, 0⟩ []).pdfExists = false ∧
    (runMain 1 ⟨true, false, 0⟩ []).dotContent = [] ∧
    (runMain 1 ⟨true, false, 0⟩ []).stdout =
      ((List.enumFrom 1 ([] : List (Nat → Nat → Bool))).flatMap
          fun p => solScreen 1 p.1 p.2) ++
        [toString ([] : List (Nat → Nat → Bool)).length ++ " solutions found",
          "GraphViz rendering commands not found.  No PDF generated"] ∧
    (runMain 1 ⟨true, false, 0⟩ []).stdout.dropLast =
      (runMain 1 { probeRaises := false, renderRaises := false, renderExit := 0 }
        []).stdout.dropLast :=
  C7_layout_unavailable 1 ⟨true, false, 0⟩ [] rfl

/-! ### C9: a nonzero rendering exit status is ignored -/

/-- C9: when the probe succeeded and the rendering invocation returns with a
nonzero exit status (without raising), the run still completes successfully:
the pdf file exists (it was opened for writing before the tool ran), the dot
file was deleted, the success line naming the pdf is printed last, and the
exit status is zero. -/
theorem C9_nonzero_render_exit (n : Nat) (env : Env) (sols : List (Nat → Nat → Bool))
    (hp : env.probeRaises = false) (hr : env.renderRaises = false)
    (hx : env.renderExit ≠ 0) :
    (runMain n env sols).exitOk = true ∧
    (runMain n env sols).pdfExists = true ∧
    (runMain n env sols).dotExists = false ∧
    (runMain n env sols).stdout =
      ((List.enumFrom 1 sols).flatMap fun p => solScreen n p.1 p.2) ++
        [toString sols.length ++ " solutions found",
          "GraphViz rendered trees in " ++ pdfName n] := by
  have e1 : runMain n env sols =
      { exitOk := true,
        stdout := (enumLoop n true sols).2.1 ++
          [toString (enumLoop n true sols).1 ++ " solutions found",
            "GraphViz rendered trees in " ++ pdfName n],
        dotExists := false, pdfExists := true,
        dotContent := "graph \x7b" :: (enumLoop n true sols).2.2 ++ ["\x7d"] } := by
    unfold runMain
    rw [hp, hr]
    rfl
  rw [e1, enumLoop_eq]
  exact ⟨rfl, rfl, rfl, rfl⟩

/-- Witness for C9 at a concrete run (size 1, no solutions, exit status 1). -/
theorem C9_nonzero_render_exit_witness :
    (runMain 1 ⟨false, false, 1⟩ []).exitOk = true ∧
    (runMain 1 ⟨false, false, 1⟩ []).pdfExists = true ∧
    (runMain 1 ⟨false, false, 1⟩ []).dotExists = false ∧
    (runMain 1 ⟨false, false, 1⟩ []).stdout =
      ((List.enumFrom 1 ([] : List (Nat → Nat → Bool))).flatMap
          fun p => solScreen 1 p.1 p.2) ++
        [toString ([] : List (Nat → Nat → Bool)).length ++ " solutions found",
          "GraphViz rendered trees in " ++ pdfName 1] :=
  C9_nonzero_render_exit 1 ⟨false, false, 1⟩ [] rfl rfl (by decide)

/-! ### C5: what actually happens when rendering fails -/

/-- C5 counterexample: the claim "a rendering failure after a successful
probe is fatal (nonzero exit status), and the dot file is deleted regardless
of whether rendering succeeded" is false on the code: a rendering invocation
that merely exits with status 1 leaves the process exit status zero, and a
rendering invocation that raises leaves the dot file undeleted. -/
theorem C5_counterexample :
    (runMain 1 ⟨false, false, 1⟩ []).exitOk = true ∧
    (runMain 1 ⟨false, true, 0⟩ []).exitOk = false ∧
    (runMain 1 ⟨false, true, 0⟩ []).dotExists = true := by
  refine ⟨rfl, rfl, rfl⟩

/-- C5 amended: after a successful probe, only a rendering invocation that
raises is fatal (nonzero exit status), and then the dot file is *not*
deleted (cleanup is not exception-safe); an invocation that returns — with
any exit status — leaves the run successful and the dot file deleted. -/
theorem C5_render_failure (n : Nat) (env : Env) (sols : List (Nat → Nat → Bool))
    (hp : env.probeRaises = false) :
    (env.renderRaises = true →
      (runMain n env sols).exitOk = false ∧ (runMain n env sols).dotExists = true) ∧
    (env.renderRaises = false →
      (runMain n env sols).exitOk = true ∧ (runMain n env sols).dotExists = false) := by
  constructor
  · intro hr
    unfold runMain
    rw [hp, hr]
    exact ⟨rfl, rfl⟩
  · intro hr
    unfold runMain
    rw [hp, hr]
    exact ⟨rfl, rfl⟩

/-- Witness for the amended C5 at a concrete raising environment. -/
theorem C5_render_failure_witness :
    ((⟨false, true, 0⟩ : Env).renderRaises = true →
      (runMain 1 ⟨false, true, 0⟩ []).exitOk = false ∧
      (runMain 1 ⟨false, true, 0⟩ []).dotExists = true) ∧
    ((⟨false, true, 0⟩ : Env).renderRaises = false →
      (runMain 1 ⟨false, true, 0⟩ []).exitOk = true ∧
      (runMain 1 ⟨false, true, 0⟩ []).dotExists = false) :=
  C5_render_failure 1 ⟨false, true, 0⟩ [] rfl

/-! ### C8 and C10: the dot-file content -/

/-- C8: when graph output is enabled, the dot file consists of exactly the
line `graph {`, then, for each solution `s` (1-based) and each realized edge
`(i, j)` with `i < j`, one line of the exact literal form
`"<s><Li>"--"<s><Lj>";` with `Li`/`Lj` the characters `'A' + i` / `'A' + j`,
and the final line `}`. -/
theorem C8_dot_file_format (n : Nat) (env : Env) (sols : List (Nat → Nat → Bool))
    (h : env.probeRaises = false) :
    (runMain n env sols).dotContent =
      "graph \x7b" ::
        ((List.enumFrom 1 sols).flatMap fun p =>
          (List.range n).flatMap fun i =>
            ((List.range' (i + 1) (n - (i + 1))).filter fun j => xval p.2 i j).map fun j =>
              "\"" ++ toString p.1 ++ String.singleton (Char.ofNat (65 + i)) ++ "\"--\""
                ++ toString p.1 ++ String.singleton (Char.ofNat (65 + j)) ++ "\";")
        ++ ["\x7d"] := by
  have e1 : (runMain n env sols).dotContent =
      "graph \x7b" :: (enumLoop n true sols).2.2 ++ ["\x7d"] := by
    unfold runMain
    rw [h]
    cases hr : env.renderRaises <;> rfl
  rw [e1, enumLoop_eq]
  rfl

/-- Witness for C8: a concrete enabled run with one 2-node solution, whose
dot file holds exactly the single statement `"1A"--"1B";`. -/
theorem C8_dot_file_format_witness :
    (runMain 2 ⟨false, false, 0⟩ [vW]).dotContent =
      "graph \x7b" ::
        ((List.enumFrom 1 [vW]).flatMap fun p =>
          (List.range 2).flatMap fun i =>
            ((List.range' (i + 1) (2 - (i + 1))).filter fun j => xval p.2 i j).map fun j =>
              "\"" ++ toString p.1 ++ String.singleton (Char.ofNat (65 + i)) ++ "\"--\""
                ++ toString p.1 ++ String.singleton (Char.ofNat (65 + j)) ++ "\";")
        ++ ["\x7d"] :=
  C8_dot_file_format 2 ⟨false, false, 0⟩ [vW] rfl

example : (runMain 2 ⟨false, false, 0⟩ [vW]).dotContent =
    ["graph \x7b", "\"1A\"--\"1B\";", "\x7d"] := by
  unfold runMain
  rfl

/-- The realized edges `(i, j)`, `i < j`, of one solution, in the order the
dot statements are emitted. -/
def solPairs (n : Nat) (v : Nat → Nat → Bool) : List (Nat × Nat) :=
  (List.range n).flatMap fun i =>
    ((List.range' (i + 1) (n - (i + 1))).filter fun j => xval v i j).map fun j => (i, j)

/-- Row-major order on index pairs: ascending smaller endpoint, then
ascending larger endpoint. -/
def pairLt (p q : Nat × Nat) : Prop := p.1 < q.1 ∨ (p.1 = q.1 ∧ p.2 < q.2)

theorem solPairs_pairwise (n : Nat) (v : Nat → Nat → Bool) :
    List.Pairwise pairLt (solPairs n v) := by
  unfold solPairs
  rw [List.pairwise_flatMap]
  constructor
  · intro i _
    rw [List.pairwise_map]
    refine List.Pairwise.filter _ ?_
    refine (List.pairwise_lt_range' (i + 1) (n - (i + 1))).imp ?_
    intro a b hab
    exact Or.inr ⟨rfl, hab⟩
  · refine (List.pairwise_lt_range n).imp ?_
    intro i1 i2 h12 x hx y hy
    simp only [List.mem_map] at hx hy
    obtain ⟨a, _, rfl⟩ := hx
    obtain ⟨b, _, rfl⟩ := hy
    exact Or.inl h12

theorem solPairs_nodup (n : Nat) (v : Nat → Nat → Bool) :
    (solPairs n v).Nodup := by
  refine (solPairs_pairwise n v).imp ?_
  intro p q hpq he
  subst he
  rcases hpq with h | ⟨_, h⟩ <;> exact Nat.lt_irrefl _ h

theorem solPairs_mem (n : Nat) (v : Nat → Nat → Bool) (a b : Nat) :
    (a, b) ∈ solPairs n v ↔ a < b ∧ b < n ∧ xval v a b = true := by
  unfold solPairs
  simp only [List.mem_flatMap, List.mem_map, List.mem_filter, List.mem_range,
    List.mem_range'_1, Prod.mk.injEq]
  constructor
  · rintro ⟨i, hi, j, ⟨⟨hj1, hj2⟩, hx⟩, rfl, rfl⟩
    exact ⟨by omega, by omega, hx⟩
  · rintro ⟨hab, hbn, hx⟩
    exact ⟨a, by omega, b, ⟨⟨by omega, by omega⟩, hx⟩, rfl, rfl⟩

theorem solDot_eq_pairs (n s : Nat) (v : Nat → Nat → Bool) :
    solDot n s v = (solPairs n v).map fun e => edgeLine s e.1 e.2 := by
  unfold solDot solPairs dotRow
  rw [List.map_flatMap]
  refine List.flatMap_congr fun i _ => ?_
  rw [List.map_map]
  rfl

/-- C10: the dot statements appear in a deterministic order: all statements
of solution `s` precede those of solution `s + 1`; within one solution they
are the statements of `solPairs`, which is sorted by ascending smaller
endpoint and then ascending larger endpoint; and each realized edge of each
solution produces exactly one statement (only for its `i < j` orientation:
`solPairs` has no duplicates and holds exactly the realized `i < j` pairs). -/
theorem C10_dot_statement_order (n : Nat) (env : Env) (sols : List (Nat → Nat → Bool))
    (h : env.probeRaises = false) :
    (runMain n env sols).dotContent =
      "graph \x7b" ::
        ((List.enumFrom 1 sols).flatMap fun p =>
          (solPairs n p.2).map fun e => edgeLine p.1 e.1 e.2)
        ++ ["\x7d"] ∧
    (∀ v, List.Pairwise pairLt (solPairs n v)) ∧
    (∀ v, (solPairs n v).Nodup) ∧
    (∀ v a b, (a, b) ∈ solPairs n v ↔ a < b ∧ b < n ∧ xval v a b = true) := by
  refine ⟨?_, fun v => solPairs_pairwise n v, fun v => solPairs_nodup n v,
    fun v a b => solPairs_mem n v a b⟩
  have e1 : (runMain n env sols).dotContent =
      "graph \x7b" :: (enumLoop n true sols).2.2 ++ ["\x7d"] := by
    unfold runMain
    rw [h]
    cases hr : env.renderRaises <;> rfl
  have e2 : (enumLoop n true sols).2.2 =
      (List.enumFrom 1 sols).flatMap fun p =>
        (solPairs n p.2).map fun e => edgeLine p.1 e.1 e.2 := by
    rw [enumLoop_eq]
    rw [if_pos rfl]
    exact List.flatMap_congr fun p _ => solDot_eq_pairs n p.1 p.2
  rw [e1, e2]

/-- Witness for C10 at the same concrete enabled run as C8. -/
theorem C10_dot_statement_order_witness :
    (runMain 2 ⟨false, false, 0⟩ [vW]).dotContent =
      "graph \x7b" ::
        ((List.enumFrom 1 [vW]).flatMap fun p =>
          (solPairs 2 p.2).map fun e => edgeLine p.1 e.1 e.2)
        ++ ["\x7d"] ∧
    (∀ v, List.Pairwise pairLt (solPairs 2 v)) ∧
    (∀ v, (solPairs 2 v).Nodup) ∧
    (∀ v a b, (a, b) ∈ solPairs 2 v ↔ a < b ∧ b < 2 ∧ xval v a b = true) :=
  C10_dot_statement_order 2 ⟨false, false, 0⟩ [vW] rfl

/-! ### C6: the printed adjacency lines determine the printed degrees -/

/-- The 0/1 values printed on the adjacency line of node `i`: the realized
values of `x[i][j]` for `j` from `i + 1` to `n - 1`, in order. -/
def printedVals (n : Nat) (v : Nat → Nat → Bool) (i : Nat) : List Nat :=
  (List.range' (i + 1) (n - (i + 1))).map (xnum v i)

/-- Entry `(i, j)` of the full adjacency matrix reconstructed from the
printed upper-triangular values: mirror across the diagonal, zero diagonal. -/
def reconstruct (n : Nat) (v : Nat → Nat → Bool) (i j : Nat) : Nat :=
  if i < j then (printedVals n v i).getD (j - i - 1) 0
  else if j < i then (printedVals n v j).getD (i - j - 1) 0
  else 0

/-- Degree of node `i` re-derived from the reconstructed matrix. -/
def reconDeg (n : Nat) (v : Nat → Nat → Bool) (i : Nat) : Nat :=
  ((List.range n).map (reconstruct n v i)).sum

theorem printedVals_getD {n : Nat} (v : Nat → Nat → Bool) {i j : Nat}
    (hij : i < j) (hj : j < n) :
    (printedVals n v i).getD (j - i - 1) 0 = xnum v i j := by
  unfold printedVals
  rw [List.getD_eq_getElem?_getD, List.getElem?_map,
    List.getElem?_range' (i + 1) 1 (show j - i - 1 < n - (i + 1) by omega)]
  have : i + 1 + 1 * (j - i - 1) = j := by omega
  rw [this]
  rfl

theorem reconstruct_eq {n : Nat} (v : Nat → Nat → Bool) {i j : Nat}
    (hi : i < n) (hj : j < n) : reconstruct n v i j = xnum v i j := by
  unfold reconstruct
  rcases Nat.lt_trichotomy i j with h | h | h
  · rw [if_pos h]
    exact printedVals_getD v h hj
  · subst h
    simp [xnum, xval_diag]
  · rw [if_neg (by omega), if_pos h]
    rw [printedVals_getD v h hi]
    exact xnum_symm v j i

theorem rowFold_fst_foldl (dg : Bool) (s : Nat) (v : Nat → Nat → Bool) (i : Nat) :
    ∀ (js : List Nat) (acc : String × List String),
      (js.foldl (rowStep dg s v i) acc).1 =
        js.foldl (fun a j => a ++ " " ++ toString (xnum v i j)) acc.1 := by
  intro js
  induction js with
  | nil => intro acc; rfl
  | cons j js ih =>
      intro acc
      rw [List.foldl_cons, List.foldl_cons, ih]
      rfl

/-- C6: reconstructing the full symmetric adjacency matrix from the printed
per-node 0/1 values and re-deriving each node's degree reproduces exactly
the degree sequence of the printed `Graph <s>, degrees = <sequence>` line;
that line literally renders `sigList`, and each printed adjacency line
consists of the indentation, the `.` marker and the printed values. -/
theorem C6_adjacency_reconstruction (n : Nat) (v : Nat → Nat → Bool) :
    ((List.range n).map fun i => reconDeg n v i) = sigList n v ∧
    (∀ s, degreesLine s n v =
      "Graph " ++ toString s ++ ", degrees = " ++ pyList (sigList n v)) ∧
    (∀ i, screenRow v i n =
      (printedVals n v i).foldl (fun a x => a ++ " " ++ toString x) (indentOf i ++ ".")) := by
  refine ⟨?_, fun s => rfl, fun i => ?_⟩
  · unfold sigList
    refine List.map_congr_left fun i hi => ?_
    rw [List.mem_range] at hi
    unfold reconDeg
    rw [List.map_congr_left fun j hj => reconstruct_eq v hi (List.mem_range.mp hj)]
    rw [sig_eq_deg]
    rfl
  · unfold screenRow rowLoop printedVals
    rw [rowFold_fst_foldl, List.foldl_map]

/-! ### C3: every satisfying assignment is a tree -/

/-- The graph realized by a solution: nodes `0, ..., n-1`, adjacency given
by the values of the edge indicator variables. -/
def solGraph (n : Nat) (v : Nat → Nat → Bool) : SimpleGraph (Fin n) where
  Adj a b := xval v a.val b.val = true
  symm := by
    intro a b hab
    rwa [xval_symm]
  loopless := by
    intro a ha
    rw [xval_diag] at ha
    exact Bool.false_ne_true ha

instance (n : Nat) (v : Nat → Nat → Bool) : DecidableRel (solGraph n v).Adj :=
  fun _ _ => instDecidableEqBool _ _

theorem sum_indicator_eq_length (p : Nat → Bool) :
    ∀ l : List Nat, ((l.map fun j => if p j then 1 else 0).sum = (l.filter p).length) := by
  intro l
  induction l with
  | nil => rfl
  | cons a l ih =>
      rw [List.map_cons, List.sum_cons, List.filter_cons]
      by_cases h : p a
      · simp [h, ih, Nat.add_comm]
      · simp [h, ih]

/-- The `num_parents == 1` constraint: node `i ≥ 1` has exactly one
neighbour whose rank is one less than its own. -/
theorem parents_existsUnique {n : Nat} {v : Nat → Nat → Bool} {r : Nat → Nat}
    (h : modelSat n v r = true) {i : Nat} (h1 : 1 ≤ i) (h2 : i < n) :
    ∃ j, (j < n ∧ xval v i j = true ∧ r j + 1 = r i) ∧
      ∀ k, k < n → xval v i k = true → r k + 1 = r i → k = j := by
  have hnp := modelSat_numParents h h1 h2
  unfold numParents at hnp
  rw [sum_indicator_eq_length] at hnp
  obtain ⟨j, hj⟩ := List.length_eq_one.mp hnp
  have hjmem : j ∈ (List.range n).filter fun j => xval v i j && (r j + 1 == r i) := by
    rw [hj]
    exact List.mem_singleton.mpr rfl
  rw [List.mem_filter, List.mem_range, Bool.and_eq_true, beq_iff_eq] at hjmem
  refine ⟨j, ⟨hjmem.1, hjmem.2.1, hjmem.2.2⟩, ?_⟩
  intro k hk hxk hrk
  have : k ∈ (List.range n).filter fun j => xval v i j && (r j + 1 == r i) := by
    rw [List.mem_filter, List.mem_range, Bool.and_eq_true, beq_iff_eq]
    exact ⟨hk, hxk, hrk⟩
  rw [hj, List.mem_singleton] at this
  exact this

/-- Only the root has rank 0. -/
theorem rank_zero_only_root {n : Nat} {v : Nat → Nat → Bool} {r : Nat → Nat}
    (h : modelSat n v r = true) {i : Nat} (hi : i < n) (hr : r i = 0) : i = 0 := by
  by_contra h0
  obtain ⟨j, ⟨_, _, hrj⟩, _⟩ :=
    parents_existsUnique h (Nat.pos_of_ne_zero h0) hi
  omega

/-- Every node reaches the root along its parent chain. -/
theorem reachable_root {n : Nat} {v : Nat → Nat → Bool} {r : Nat → Nat}
    (h : modelSat n v r = true) (hn : 0 < n) :
    ∀ (k : Nat) (a : Fin n), r a.val = k → (solGraph n v).Reachable a ⟨0, hn⟩ := by
  intro k
  induction k using Nat.strong_induction_on with
  | _ k ih =>
      intro a hk
      by_cases h0 : a.val = 0
      · have : a = ⟨0, hn⟩ := Fin.ext h0
        rw [this]
      · obtain ⟨j, ⟨hjn, hxj, hrj⟩, _⟩ :=
          parents_existsUnique h (Nat.pos_of_ne_zero h0) a.isLt
        have hadj : (solGraph n v).Adj a ⟨j, hjn⟩ := hxj
        have hreach := ih (r j) (by omega) ⟨j, hjn⟩ rfl
        exact hadj.reachable.trans hreach

theorem solGraph_connected {n : Nat} {v : Nat → Nat → Bool} {r : Nat → Nat}
    (h : modelSat n v r = true) (hn : 0 < n) : (solGraph n v).Connected := by
  haveI : Nonempty (Fin n) := ⟨⟨0, hn⟩⟩
  exact ⟨fun a b =>
    (reachable_root h hn (r a.val) a rfl).trans
      (reachable_root h hn (r b.val) b rfl).symm⟩

/-- In a graph where every edge changes a rank function by exactly one and
lower-rank neighbours are unique, every walk to a target of strictly
smaller rank uses the edge from the source to its lower neighbour. -/
theorem descent_uses_parent {V : Type} [DecidableEq V] {G : SimpleGraph V} {rk : V → Nat}
    (hEdge : ∀ a b : V, G.Adj a b → rk a + 1 = rk b ∨ rk b + 1 = rk a)
    (hUniq : ∀ a c c' : V, G.Adj a c → G.Adj a c' →
      rk c + 1 = rk a → rk c' + 1 = rk a → c = c') :
    ∀ (N : Nat) (a b : V) (p : G.Walk a b), p.length ≤ N → rk b < rk a →
      ∃ c : V, G.Adj a c ∧ rk c + 1 = rk a ∧ s(a, c) ∈ p.edges := by
  intro N
  induction N with
  | zero =>
      intro a b p hl hr
      cases p with
      | nil => omega
      | cons hax q => simp [SimpleGraph.Walk.length_cons] at hl
  | succ N ih =>
      intro a b p hl hr
      cases p with
      | nil => omega
      | cons hax q =>
          rename_i x
          have hql : q.length ≤ N := by
            simp only [SimpleGraph.Walk.length_cons] at hl
            omega
          rcases hEdge _ _ hax with hup | hdown
          · -- the first step ascends: the walk must come back through `a`
            have hbx : rk b < rk x := by omega
            obtain ⟨c, hc, hrc, hce⟩ := ih x b q hql hbx
            have hca : c = a := hUniq x c a hc hax.symm hrc (by omega)
            rw [hca] at hce
            have hamem : a ∈ q.support :=
              SimpleGraph.Walk.snd_mem_support_of_mem_edges q hce
            have hlen2 : (q.dropUntil a hamem).length ≤ N :=
              le_trans (SimpleGraph.Walk.length_dropUntil_le q hamem) hql
            obtain ⟨c, hc, hrc, hce2⟩ := ih a b (q.dropUntil a hamem) hlen2 hr
            refine ⟨c, hc, hrc, ?_⟩
            rw [SimpleGraph.Walk.edges_cons]
            exact List.mem_cons_of_mem _
              (SimpleGraph.Walk.edges_dropUntil_subset q hamem hce2)
          · refine ⟨x, hax, hdown, ?_⟩
            rw [SimpleGraph.Walk.edges_cons]
            exact List.mem_cons_self _ _

/-- A graph graded by a rank function with unique lower neighbours has no
cycles. -/
theorem rank_graph_acyclic {V : Type} [DecidableEq V] {G : SimpleGraph V} {rk : V → Nat}
    (hEdge : ∀ a b : V, G.Adj a b → rk a + 1 = rk b ∨ rk b + 1 = rk a)
    (hUniq : ∀ a c c' : V, G.Adj a c → G.Adj a c' →
      rk c + 1 = rk a → rk c' + 1 = rk a → c = c') : G.IsAcyclic := by
  intro u w hw
  cases w with
  | nil =>
      have := hw.three_le_length
      simp only [SimpleGraph.Walk.length_nil] at this
      omega
  | cons hax q =>
      rename_i x
      have hnodup := hw.edges_nodup
      rw [SimpleGraph.Walk.edges_cons, List.nodup_cons] at hnodup
      rcases hEdge _ _ hax with hup | hdown
      · -- first step ascends: the rest of the cycle descends back to `u`
        obtain ⟨c, hc, hrc, hce⟩ :=
          descent_uses_parent hEdge hUniq q.length x u q le_rfl (by omega)
        have hca : c = u := hUniq x c u hc hax.symm hrc (by omega)
        rw [hca, Sym2.eq_swap] at hce
        exact hnodup.1 hce
      · -- first step descends to the unique lower neighbour of `u`
        obtain ⟨c, hc, hrc, hce⟩ :=
          descent_uses_parent hEdge hUniq q.reverse.length u x q.reverse le_rfl (by omega)
        have hcx : c = x := hUniq u c x hc hax hrc (by omega)
        rw [hcx, SimpleGraph.Walk.edges_reverse, List.mem_reverse] at hce
        exact hnodup.1 hce

theorem solGraph_edge_rank {n : Nat} {v : Nat → Nat → Bool} {r : Nat → Nat}
    (h : modelSat n v r = true) :
    ∀ a b : Fin n, (solGraph n v).Adj a b →
      r a.val + 1 = r b.val ∨ r b.val + 1 = r a.val := by
  intro a b hab
  exact edge_rank_any h a.isLt b.isLt (fun he => hab.ne (Fin.ext he)) hab

theorem solGraph_parent_unique {n : Nat} {v : Nat → Nat → Bool} {r : Nat → Nat}
    (h : modelSat n v r = true) :
    ∀ a c c' : Fin n, (solGraph n v).Adj a c → (solGraph n v).Adj a c' →
      r c.val + 1 = r a.val → r c'.val + 1 = r a.val → c = c' := by
  intro a c c' hc hc' hrc hrc'
  by_cases h0 : a.val = 0
  · exfalso
    have hr0 : r a.val = 0 := by
      rw [h0]
      exact modelSat_rank_zero h
    omega
  · obtain ⟨j, _, huniq⟩ := parents_existsUnique h (Nat.pos_of_ne_zero h0) a.isLt
    have e1 : c.val = j := huniq c.val c.isLt hc hrc
    have e2 : c'.val = j := huniq c'.val c'.isLt hc' hrc'
    exact Fin.ext (e1.trans e2.symm)

theorem solGraph_acyclic {n : Nat} {v : Nat → Nat → Bool} {r : Nat → Nat}
    (h : modelSat n v r = true) : (solGraph n v).IsAcyclic :=
  @rank_graph_acyclic (Fin n) _ (solGraph n v) (fun a => r a.val)
    (solGraph_edge_rank h) (solGraph_parent_unique h)

theorem card_filter_pairs {n : Nat} (P : Fin n × Fin n → Prop) [DecidablePred P] :
    (Finset.univ.filter P).card =
      ∑ a : Fin n, (Finset.univ.filter fun b : Fin n => P (a, b)).card := by
  have H : ∀ x ∈ Finset.univ.filter P,
      (x : Fin n × Fin n).1 ∈ (Finset.univ : Finset (Fin n)) :=
    fun x _ => Finset.mem_univ _
  rw [Finset.card_eq_sum_card_fiberwise H]
  refine Finset.sum_congr rfl fun a _ => ?_
  refine Finset.card_bij (fun x _ => x.2) ?_ ?_ ?_
  · intro x hx
    simp only [Finset.mem_filter, Finset.mem_univ, true_and] at hx ⊢
    obtain ⟨hP, h1⟩ := hx
    have he : (a, x.2) = x := Prod.ext h1.symm rfl
    rwa [he]
  · intro x hx y hy he
    simp only [Finset.mem_filter] at hx hy
    exact Prod.ext (hx.2.trans hy.2.symm) he
  · intro b hb
    simp only [Finset.mem_filter, Finset.mem_univ, true_and] at hb
    exact ⟨(a, b), by simp [hb], rfl⟩

/-- The child-oriented adjacent pairs are counted by the unique-parent
constraint: one for every node except the root. -/
theorem card_child_pairs {n : Nat} {v : Nat → Nat → Bool} {r : Nat → Nat}
    (h : modelSat n v r = true) (hn : 0 < n) :
    (Finset.univ.filter fun p : Fin n × Fin n =>
      (solGraph n v).Adj p.1 p.2 ∧ r p.2.val + 1 = r p.1.val).card = n - 1 := by
  rw [card_filter_pairs]
  have hfib : ∀ a : Fin n,
      (Finset.univ.filter fun b : Fin n =>
        (solGraph n v).Adj a b ∧ r b.val + 1 = r a.val).card =
      if a = (⟨0, hn⟩ : Fin n) then 0 else 1 := by
    intro a
    by_cases h0 : a = ⟨0, hn⟩
    · rw [if_pos h0, Finset.card_eq_zero, Finset.filter_eq_empty_iff]
      rintro b - ⟨hadj, hrk⟩
      have hr0 : r a.val = 0 := by
        rw [h0]
        exact modelSat_rank_zero h
      omega
    · rw [if_neg h0]
      have hval : a.val ≠ 0 := fun he => h0 (Fin.ext he)
      obtain ⟨j, ⟨hjn, hxj, hrj⟩, huniq⟩ :=
        parents_existsUnique h (Nat.pos_of_ne_zero hval) a.isLt
      rw [Finset.card_eq_one]
      refine ⟨⟨j, hjn⟩, ?_⟩
      ext b
      simp only [Finset.mem_filter, Finset.mem_univ, true_and, Finset.mem_singleton]
      constructor
      · rintro ⟨hadj, hrk⟩
        exact Fin.ext (huniq b.val b.isLt hadj hrk)
      · rintro rfl
        exact ⟨hxj, hrj⟩
  rw [Finset.sum_congr rfl fun a _ => hfib a,
    ← Finset.add_sum_erase Finset.univ _ (Finset.mem_univ (⟨0, hn⟩ : Fin n)),
    if_pos rfl, Nat.zero_add,
    Finset.sum_congr rfl fun a ha => if_neg (Finset.mem_erase.mp ha).1,
    Finset.sum_const, smul_eq_mul, mul_one,
    Finset.card_erase_of_mem (Finset.mem_univ _), Finset.card_univ, Fintype.card_fin]

/-- If a predicate on pairs splits into two disjoint halves exchanged by
swapping, the whole count is twice either half. -/
theorem card_filter_two_halves {α : Type} [DecidableEq α] [Fintype α]
    (P Q R : α × α → Prop) [DecidablePred P] [DecidablePred Q] [DecidablePred R]
    (hsplit : ∀ p, P p ↔ (Q p ∨ R p))
    (hdisj : ∀ p, ¬(Q p ∧ R p))
    (hswap : ∀ p : α × α, R p ↔ Q p.swap) :
    (Finset.univ.filter P).card = 2 * (Finset.univ.filter Q).card := by
  have hU : Finset.univ.filter P = Finset.univ.filter Q ∪ Finset.univ.filter R := by
    ext p
    simp [hsplit p]
  have hD : Disjoint (Finset.univ.filter Q) (Finset.univ.filter R) := by
    rw [Finset.disjoint_left]
    intro p hp hp'
    simp only [Finset.mem_filter, Finset.mem_univ, true_and] at hp hp'
    exact hdisj p ⟨hp, hp'⟩
  have hI : Finset.univ.filter R = (Finset.univ.filter Q).image Prod.swap := by
    ext p
    simp only [Finset.mem_filter, Finset.mem_univ, true_and, Finset.mem_image]
    constructor
    · intro hr
      exact ⟨p.swap, by simpa using (hswap p).mp hr, Prod.swap_swap p⟩
    · rintro ⟨q, hq, rfl⟩
      rw [hswap, Prod.swap_swap]
      exact hq
  rw [hU, Finset.card_union_of_disjoint hD, hI,
    Finset.card_image_of_injective _ Prod.swap_injective]
  omega

/-- The edge set of a solution, as ordered pairs `(i, j)` with `i < j`, has
exactly `n - 1` elements. -/
theorem card_solution_edges {n : Nat} {v : Nat → Nat → Bool} {r : Nat → Nat}
    (h : modelSat n v r = true) (hn : 0 < n) :
    (Finset.univ.filter fun p : Fin n × Fin n =>
      p.1 < p.2 ∧ (solGraph n v).Adj p.1 p.2).card = n - 1 := by
  have hA1 : (Finset.univ.filter fun p : Fin n × Fin n =>
      (solGraph n v).Adj p.1 p.2).card =
      2 * (Finset.univ.filter fun p : Fin n × Fin n =>
        (solGraph n v).Adj p.1 p.2 ∧ r p.2.val + 1 = r p.1.val).card := by
    refine card_filter_two_halves _ _
      (fun p => (solGraph n v).Adj p.1 p.2 ∧ r p.1.val + 1 = r p.2.val) ?_ ?_ ?_
    · intro p
      constructor
      · intro hadj
        rcases solGraph_edge_rank h p.1 p.2 hadj with hc | hc
        · exact Or.inr ⟨hadj, hc⟩
        · exact Or.inl ⟨hadj, hc⟩
      · rintro (⟨hadj, -⟩ | ⟨hadj, -⟩) <;> exact hadj
    · rintro p ⟨⟨-, h1⟩, ⟨-, h2⟩⟩
      omega
    · intro p
      exact and_congr ⟨fun hadj => hadj.symm, fun hadj => hadj.symm⟩ Iff.rfl
  have hA2 : (Finset.univ.filter fun p : Fin n × Fin n =>
      (solGraph n v).Adj p.1 p.2).card =
      2 * (Finset.univ.filter fun p : Fin n × Fin n =>
        p.1 < p.2 ∧ (solGraph n v).Adj p.1 p.2).card := by
    refine card_filter_two_halves _ _
      (fun p => p.2 < p.1 ∧ (solGraph n v).Adj p.1 p.2) ?_ ?_ ?_
    · intro p
      constructor
      · intro hadj
        rcases lt_trichotomy p.1 p.2 with hc | hc | hc
        · exact Or.inl ⟨hc, hadj⟩
        · exact absurd hc hadj.ne
        · exact Or.inr ⟨hc, hadj⟩
      · rintro (⟨-, hadj⟩ | ⟨-, hadj⟩) <;> exact hadj
    · rintro p ⟨⟨h1, -⟩, ⟨h2, -⟩⟩
      exact absurd (h1.trans h2) (lt_irrefl _)
    · intro p
      exact and_congr Iff.rfl ⟨fun hadj => hadj.symm, fun hadj => hadj.symm⟩
  rw [hA1, card_child_pairs h hn] at hA2
  omega

/-- C3: for every `n ≥ 1` and every satisfying assignment, the edge set
`{(i,j) : i < j, x(i,j) = 1}` forms a tree on the `n` nodes: exactly `n - 1`
edges, connected, acyclic, every edge joins nodes whose ranks differ by
exactly one, and every node except node 0 has exactly one incident edge to
a node whose rank is one less than its own. -/
theorem C3_solution_is_tree (n : Nat) (v : Nat → Nat → Bool) (r : Nat → Nat)
    (hn : 0 < n) (h : modelSat n v r = true) :
    (Finset.univ.filter fun p : Fin n × Fin n =>
      p.1 < p.2 ∧ (solGraph n v).Adj p.1 p.2).card = n - 1 ∧
    (solGraph n v).Connected ∧
    (solGraph n v).IsAcyclic ∧
    (∀ a b : Fin n, (solGraph n v).Adj a b →
      r a.val + 1 = r b.val ∨ r b.val + 1 = r a.val) ∧
    (∀ a : Fin n, a.val ≠ 0 →
      ∃! b : Fin n, (solGraph n v).Adj a b ∧ r b.val + 1 = r a.val) := by
  refine ⟨card_solution_edges h hn, solGraph_connected h hn, solGraph_acyclic h,
    solGraph_edge_rank h, ?_⟩
  intro a ha
  obtain ⟨j, ⟨hjn, hxj, hrj⟩, huniq⟩ :=
    parents_existsUnique h (Nat.pos_of_ne_zero ha) a.isLt
  refine ⟨⟨j, hjn⟩, ⟨hxj, hrj⟩, ?_⟩
  rintro b ⟨hadj, hrk⟩
  exact Fin.ext (huniq b.val b.isLt hadj hrk)

/-- Witness for C3 at the concrete 2-node satisfying assignment. -/
theorem C3_solution_is_tree_witness :
    0 < 2 ∧ modelSat 2 vW rW = true ∧
    ((Finset.univ.filter fun p : Fin 2 × Fin 2 =>
        p.1 < p.2 ∧ (solGraph 2 vW).Adj p.1 p.2).card = 2 - 1 ∧
      (solGraph 2 vW).Connected ∧
      (solGraph 2 vW).IsAcyclic ∧
      (∀ a b : Fin 2, (solGraph 2 vW).Adj a b →
        rW a.val + 1 = rW b.val ∨ rW b.val + 1 = rW a.val) ∧
      (∀ a : Fin 2, a.val ≠ 0 →
        ∃! b : Fin 2, (solGraph 2 vW).Adj a b ∧ rW b.val + 1 = rW a.val)) :=
  ⟨by decide, by decide, C3_solution_is_tree 2 vW rW (by decide) (by decide)⟩

end GWH
